import Mathlib

/-!
Verification of `generateProductCode` (Product-CRUD repository).

Shallow embedding of the product-code generation routine from
`src/utils/productCodeGen.js` (imported by `src/routes/post.mjs`):

```js
export function generateProductCode(productName) {
  const lower = productName.toLowerCase();
  let maxLen = 0, substrings = [];
  for (let i = 0; i < lower.length; i++) {
    let j = i;
    while (j + 1 < lower.length && lower[j] < lower[j + 1]) j++;
    const len = j - i + 1;
    if (len > maxLen) { maxLen = len; substrings = [{ str: lower.slice(i, j + 1), start: i }]; }
    else if (len === maxLen) substrings.push({ str: lower.slice(i, j + 1), start: i });
    i = j;
  }
  const concat = substrings.map(s => s.str).join('');
  const first = substrings[0].start;
  const last = first + maxLen - 1;
  const hash = crypto.createHash('sha1').update(productName).digest('hex').slice(0, 8);
  return `${hash}-${first}${concat}${last}`;
}
```

Strings are modelled as Lean `String` / `List Char` (one `Char` per code
unit; all inputs considered live in the Basic Multilingual Plane, where
JavaScript code units and code points coincide).  The unconditional access
`substrings[0].start`, which throws a `TypeError` when `substrings` is
empty, is modelled by returning `none`.
-/

namespace ProductCode

/-- Character-level model of `String.prototype.toLowerCase` on the Basic
Latin range: `A`–`Z` map to `a`–`z`, every other code point is returned
unchanged. -/
def jsToLower (c : Char) : Char :=
  if 'A' ≤ c ∧ c ≤ 'Z' then Char.ofNat (c.toNat + 32) else c

/-- The effect of `productName.toLowerCase()` on the character list of
the input. -/
def lowerStr (cs : List Char) : List Char := cs.map jsToLower

/-- The inner loop `while (j + 1 < lower.length && lower[j] < lower[j+1]) j++`: starting from character `c`, greedily extend a strictly-increasing
run into the remaining characters.  Returns the run (which always begins
with `c`) and the unconsumed remainder. -/
def takeRun (c : Char) : List Char → List Char × List Char
  | [] => ([c], [])
  | d :: rest =>
    if c < d then
      let p := takeRun d rest
      (c :: p.1, p.2)
    else ([c], d :: rest)

theorem takeRun_append (c : Char) : ∀ l : List Char,
    (takeRun c l).1 ++ (takeRun c l).2 = c :: l := by
  intro l
  induction l generalizing c with
  | nil => rfl
  | cons d rest ih =>
    by_cases h : c < d
    · simp only [takeRun, if_pos h]
      simpa using ih d
    · simp [takeRun, if_neg h]

theorem takeRun_fst_ne_nil (c : Char) (l : List Char) : (takeRun c l).1 ≠ [] := by
  cases l with
  | nil => simp [takeRun]
  | cons d rest =>
    by_cases h : c < d <;> simp [takeRun, h]

theorem takeRun_snd_length_le (c : Char) : ∀ l : List Char,
    (takeRun c l).2.length ≤ l.length := by
  intro l
  induction l generalizing c with
  | nil => simp [takeRun]
  | cons d rest ih =>
    by_cases h : c < d
    · simp only [takeRun, if_pos h]
      exact Nat.le_trans (ih d) (Nat.le_succ _)
    · simp [takeRun, h]

/-- Fuel-indexed implementation of the outer scan loop.  The fuel bounds
the number of iterations; every iteration consumes at least one character,
so `l.length` fuel always suffices. -/
def scanRunsF : Nat → List Char → Nat → List (List Char × Nat)
  | 0, _, _ => []
  | _, [], _ => []
  | fuel + 1, c :: rest, i =>
    let p := takeRun c rest
    (p.1, i) :: scanRunsF fuel p.2 (i + p.1.length)

/-- The outer `for` loop's traversal: decompose the whole string into its
consecutive maximal strictly-increasing runs.  `i` is the absolute index
of the first character of `l` in the original string; each run is recorded
together with its absolute start index, matching
`{ str: lower.slice(i, j + 1), start: i }`. -/
def scanRuns (l : List Char) (i : Nat) : List (List Char × Nat) :=
  scanRunsF l.length l i

theorem scanRunsF_nil (f i : Nat) : scanRunsF f [] i = [] := by
  cases f <;> rfl

theorem scanRunsF_fuel : ∀ (f1 f2 : Nat) (l : List Char) (i : Nat),
    l.length ≤ f1 → l.length ≤ f2 → scanRunsF f1 l i = scanRunsF f2 l i := by
  intro f1
  induction f1 with
  | zero =>
    intro f2 l i h1 _
    have hl : l = [] := List.eq_nil_of_length_eq_zero (by omega)
    rw [hl, scanRunsF_nil, scanRunsF_nil]
  | succ f ih =>
    intro f2 l i h1 h2
    cases l with
    | nil => rw [scanRunsF_nil, scanRunsF_nil]
    | cons c rest =>
      cases f2 with
      | zero => simp at h2
      | succ f2' =>
        simp only [scanRunsF]
        congr 1
        have hlen : rest.length ≤ f := by
          have := List.length_cons c rest
          omega
        have hlen2 : rest.length ≤ f2' := by
          have := List.length_cons c rest
          omega
        exact ih f2' _ _
          (Nat.le_trans (takeRun_snd_length_le c rest) hlen)
          (Nat.le_trans (takeRun_snd_length_le c rest) hlen2)

/-- One step of the `maxLen` / `substrings` accumulation:
`if (len > maxLen) { reset } else if (len === maxLen) { push }`. -/
def updateMax (acc : Nat × List (List Char × Nat)) (run : List Char × Nat) :
    Nat × List (List Char × Nat) :=
  if run.1.length > acc.1 then (run.1.length, [run])
  else if run.1.length = acc.1 then (acc.1, acc.2 ++ [run])
  else acc

/-- The state `(maxLen, substrings)` after the scan loop finishes. -/
def scanResult (l : List Char) : Nat × List (List Char × Nat) :=
  (scanRuns l 0).foldl updateMax (0, [])

/-- Fuel-indexed decimal rendering (the fuel strictly bounds the value, so
division by ten always stays within fuel). -/
def decimalReprF : Nat → Nat → List Char
  | 0, _ => []
  | fuel + 1, n =>
    if n < 10 then [Char.ofNat (48 + n)]
    else decimalReprF fuel (n / 10) ++ [Char.ofNat (48 + n % 10)]

/-- Decimal rendering of a natural number, as produced by JavaScript
template interpolation `${n}` for a non-negative integer. -/
def decimalRepr (n : Nat) : List Char := decimalReprF (n + 1) n

theorem decimalReprF_fuel : ∀ (f1 f2 n : Nat), n < f1 → n < f2 →
    decimalReprF f1 n = decimalReprF f2 n := by
  intro f1
  induction f1 with
  | zero => intro f2 n h1 _; exact absurd h1 (Nat.not_lt_zero n)
  | succ f ih =>
    intro f2 n h1 h2
    cases f2 with
    | zero => exact absurd h2 (Nat.not_lt_zero n)
    | succ f2' =>
      simp only [decimalReprF]
      by_cases hn : n < 10
      · rw [if_pos hn, if_pos hn]
      · rw [if_neg hn, if_neg hn]
        congr 1
        exact ih f2' (n / 10) (by omega) (by omega)

theorem decimalRepr_eq (n : Nat) :
    decimalRepr n = if n < 10 then [Char.ofNat (48 + n)]
      else decimalRepr (n / 10) ++ [Char.ofNat (48 + n % 10)] := by
  show decimalReprF (n + 1) n = _
  simp only [decimalReprF]
  by_cases hn : n < 10
  · rw [if_pos hn, if_pos hn]
  · rw [if_neg hn, if_neg hn]
    congr 1
    exact decimalReprF_fuel n (n / 10 + 1) (n / 10) (by omega) (by omega)

/-! ## SHA-1

`crypto.createHash('sha1').update(productName).digest('hex')` hashes the
UTF-8 encoding of the input and renders the 20-byte digest as 40 lowercase
hexadecimal characters.  Bytes and 32-bit words are modelled as `Nat`
reduced modulo `2^8` / `2^32` where overflow matters. -/

/-- UTF-8 encoding of a single code point. -/
def utf8Char (c : Char) : List Nat :=
  let n := c.toNat
  if n < 128 then [n]
  else if n < 2048 then [192 + n / 64, 128 + n % 64]
  else if n < 65536 then [224 + n / 4096, 128 + n / 64 % 64, 128 + n % 64]
  else [240 + n / 262144, 128 + n / 4096 % 64, 128 + n / 64 % 64, 128 + n % 64]

/-- UTF-8 encoding of a string (as byte values). -/
def utf8Bytes (cs : List Char) : List Nat := (cs.map utf8Char).flatten

/-- 32-bit left rotation. -/
def rotl32 (n x : Nat) : Nat := ((x <<< n) ||| (x >>> (32 - n))) % 4294967296

/-- SHA-1 round function `f_t`. -/
def sha1F (t b c d : Nat) : Nat :=
  if t < 20 then (b &&& c) ||| ((b ^^^ 4294967295) &&& d)
  else if t < 40 then b ^^^ c ^^^ d
  else if t < 60 then (b &&& c) ||| (b &&& d) ||| (c &&& d)
  else b ^^^ c ^^^ d

/-- SHA-1 round constant `K_t`. -/
def sha1K (t : Nat) : Nat :=
  if t < 20 then 1518500249
  else if t < 40 then 1859775393
  else if t < 60 then 2400959708
  else 3395469782

/-- Big-endian packing of bytes into 32-bit words. -/
def bytesToWords : List Nat → List Nat
  | b0 :: b1 :: b2 :: b3 :: rest =>
    (b0 * 16777216 + b1 * 65536 + b2 * 256 + b3) :: bytesToWords rest
  | _ => []

/-- Extend the 16-word message schedule by `k` further words
(`w[i] = rotl1 (w[i-3] xor w[i-8] xor w[i-14] xor w[i-16])`). -/
def extendWAux : Nat → List Nat → List Nat
  | 0, w => w
  | k + 1, w =>
    extendWAux k (w ++ [rotl32 1 (w.getD (w.length - 3) 0 ^^^ w.getD (w.length - 8) 0
      ^^^ w.getD (w.length - 14) 0 ^^^ w.getD (w.length - 16) 0)])

/-- The full 80-word message schedule of one chunk. -/
def extendW (w : List Nat) : List Nat := extendWAux 64 w

/-- The 80 compression rounds of one chunk. -/
def sha1Rounds (w : List Nat) (st : Nat × Nat × Nat × Nat × Nat) :
    Nat × Nat × Nat × Nat × Nat :=
  (List.range 80).foldl (fun st t =>
    match st with
    | (a, b, c, d, e) =>
      ((rotl32 5 a + sha1F t b c d + e + sha1K t + w.getD t 0) % 4294967296,
        a, rotl32 30 b, c, d)) st

/-- Process one 64-byte chunk: run the rounds and add the result into the
running hash state, modulo `2^32`. -/
def processChunk (st : Nat × Nat × Nat × Nat × Nat) (chunk : List Nat) :
    Nat × Nat × Nat × Nat × Nat :=
  match st, sha1Rounds (extendW (bytesToWords chunk)) st with
  | (h0, h1, h2, h3, h4), (a, b, c, d, e) =>
    ((h0 + a) % 4294967296, (h1 + b) % 4294967296, (h2 + c) % 4294967296,
      (h3 + d) % 4294967296, (h4 + e) % 4294967296)

/-- 8-byte big-endian encoding of the message bit length. -/
def lengthBytes (n : Nat) : List Nat :=
  [n >>> 56 % 256, n >>> 48 % 256, n >>> 40 % 256, n >>> 32 % 256,
    n >>> 24 % 256, n >>> 16 % 256, n >>> 8 % 256, n % 256]

/-- Merkle–Damgård padding: `0x80`, zeros to 56 mod 64, 64-bit bit length. -/
def padMessage (m : List Nat) : List Nat :=
  m ++ 128 :: List.replicate ((119 - m.length % 64) % 64) 0 ++ lengthBytes (m.length * 8)

/-- Fuel-indexed 64-byte chunking (each step consumes 64 bytes, so
`l.length + 1` fuel always suffices). -/
def chunks64F : Nat → List Nat → List (List Nat)
  | 0, _ => []
  | fuel + 1, l => if l = [] then [] else l.take 64 :: chunks64F fuel (l.drop 64)

/-- Split a byte list into 64-byte chunks. -/
def chunks64 (l : List Nat) : List (List Nat) := chunks64F (l.length + 1) l

/-- Big-endian byte decomposition of a 32-bit word. -/
def wordToBytes (w : Nat) : List Nat :=
  [w >>> 24 % 256, w >>> 16 % 256, w >>> 8 % 256, w % 256]

/-- SHA-1 digest (20 bytes) of a byte message. -/
def sha1 (m : List Nat) : List Nat :=
  match (chunks64 (padMessage m)).foldl processChunk
      (1732584193, 4023233417, 2562383102, 271733878, 3285377520) with
  | (h0, h1, h2, h3, h4) =>
    wordToBytes h0 ++ wordToBytes h1 ++ wordToBytes h2 ++ wordToBytes h3 ++ wordToBytes h4

/-- Lowercase hexadecimal digit for a value below 16. -/
def hexDigit (n : Nat) : Char :=
  if n < 10 then Char.ofNat (48 + n) else Char.ofNat (87 + n)

/-- Two-character lowercase hex rendering of a byte. -/
def byteToHex (b : Nat) : List Char := [hexDigit (b / 16 % 16), hexDigit (b % 16)]

/-- The call `digest('hex')`: the 40-character lowercase hex digest of a
string. -/
def sha1HexString (s : String) : List Char := ((sha1 (utf8Bytes s.data)).map byteToHex).flatten

/-! ## The function under verification -/

/-- Shallow embedding of `generateProductCode`.  The JavaScript original
dereferences `substrings[0]` unconditionally; the `TypeError` thrown when
`substrings` is empty (empty input) is modelled as `none`. -/
def generateProductCode (productName : String) : Option String :=
  let res := scanResult (lowerStr productName.data)
  match res.2 with
  | [] => none
  | r :: _ =>
    some ⟨(sha1HexString productName).take 8 ++ '-' ::
      (decimalRepr r.2 ++ (res.2.map Prod.fst).flatten ++ decimalRepr (r.2 + res.1 - 1))⟩

/-! ## Declarative specification of maximal runs

These definitions follow the specification's words, not the scan code:
a *maximal strictly-increasing run* is "a maximal contiguous substring
where each character's code-point value strictly exceeds the previous
one's", and the *tied-maximum set* is "the set of all maximal runs sharing
the greatest length found", enumerated in left-to-right order. -/

/-- Predicate `IsMaxRun l s len`: the `len` characters of `l` starting at index `s`
form a maximal strictly-increasing run: they are contiguous, strictly
increasing, and extend neither left nor right. -/
def IsMaxRun (l : List Char) (s len : Nat) : Prop :=
  1 ≤ len ∧ s + len ≤ l.length ∧
    List.Chain' (· < ·) ((l.drop s).take len) ∧
    (s = 0 ∨ ¬ l.getD (s - 1) 'a' < l.getD s 'a') ∧
    (s + len = l.length ∨ ¬ l.getD (s + len - 1) 'a' < l.getD (s + len) 'a')

/-- Executable check that consecutive characters strictly increase. -/
def chainLtB : List Char → Bool
  | [] => true
  | [_] => true
  | a :: b :: t => decide (a < b) && chainLtB (b :: t)

theorem chainLtB_iff : ∀ l : List Char, chainLtB l = true ↔ List.Chain' (· < ·) l
  | [] => by simp [chainLtB]
  | [a] => by simp [chainLtB]
  | a :: b :: t => by
    rw [chainLtB, List.chain'_cons]
    simp [chainLtB_iff (b :: t)]

/-- Executable version of `IsMaxRun`. -/
def isMaxRunB (l : List Char) (s len : Nat) : Bool :=
  decide (1 ≤ len) && decide (s + len ≤ l.length)
    && chainLtB ((l.drop s).take len)
    && (decide (s = 0) || !decide (l.getD (s - 1) 'a' < l.getD s 'a'))
    && (decide (s + len = l.length)
        || !decide (l.getD (s + len - 1) 'a' < l.getD (s + len) 'a'))

theorem isMaxRunB_iff (l : List Char) (s len : Nat) :
    isMaxRunB l s len = true ↔ IsMaxRun l s len := by
  rw [isMaxRunB, IsMaxRun]
  simp only [Bool.and_eq_true, Bool.or_eq_true, Bool.not_eq_true',
    decide_eq_true_eq, decide_eq_false_iff_not, chainLtB_iff, and_assoc]

instance (l : List Char) (s len : Nat) : Decidable (IsMaxRun l s len) :=
  decidable_of_iff (isMaxRunB l s len = true) (isMaxRunB_iff l s len)

/-- The greatest length attained by any maximal strictly-increasing run. -/
def specGreatest (l : List Char) : Nat :=
  (((List.range (l.length + 1)).filter fun len =>
    (List.range (l.length + 1)).any fun s => decide (IsMaxRun l s len))).foldr max 0

/-- The tied-maximum set: all maximal runs of the greatest length, with
their substrings and start indices, in left-to-right order of occurrence. -/
def specTied (l : List Char) : List (List Char × Nat) :=
  (List.range (l.length + 1)).filterMap fun s =>
    if IsMaxRun l s (specGreatest l) then
      some ((l.drop s).take (specGreatest l), s)
    else none

/-! ## Basic lemmas about `takeRun` -/

theorem getD_drop (l : List Char) (i k : Nat) (d : Char) :
    (l.drop i).getD k d = l.getD (i + k) d := by
  simp [List.getD_eq_getElem?_getD, List.getElem?_drop]

theorem takeRun_fst_head (c : Char) (l : List Char) :
    ∃ t, (takeRun c l).1 = c :: t := by
  cases l with
  | nil => exact ⟨[], rfl⟩
  | cons d rest =>
    by_cases h : c < d
    · exact ⟨(takeRun d rest).1, by simp [takeRun, h]⟩
    · exact ⟨[], by simp [takeRun, h]⟩

theorem takeRun_chain' (c : Char) : ∀ l : List Char,
    List.Chain' (· < ·) (takeRun c l).1 := by
  intro l
  induction l generalizing c with
  | nil => simp [takeRun]
  | cons d rest ih =>
    by_cases h : c < d
    · obtain ⟨t, ht⟩ := takeRun_fst_head d rest
      simp only [takeRun, if_pos h]
      rw [ht, List.chain'_cons]
      exact ⟨h, ht ▸ ih d⟩
    · simp [takeRun, h]

theorem takeRun_boundary (c : Char) : ∀ (l : List Char) (d : Char) (r : List Char),
    (takeRun c l).2 = d :: r →
    ¬ (takeRun c l).1.getD ((takeRun c l).1.length - 1) 'a' < d := by
  intro l
  induction l generalizing c with
  | nil => intro d r h; simp [takeRun] at h
  | cons e rest ih =>
    intro d r h
    by_cases hce : c < e
    · simp only [takeRun, if_pos hce] at h ⊢
      obtain ⟨t, ht⟩ := takeRun_fst_head e rest
      have hlen : (c :: (takeRun e rest).1).length - 1 = ((takeRun e rest).1.length - 1) + 1 := by
        rw [ht]; simp
      rw [hlen, List.getD_cons_succ]
      exact ih e d r h
    · simp only [takeRun, if_neg hce] at h ⊢
      obtain ⟨rfl, rfl⟩ : e = d ∧ rest = r := by
        constructor <;> [exact (List.cons.injEq .. ▸ h).1; exact (List.cons.injEq .. ▸ h).2]
      simpa using hce

/-! ## Structural lemmas about `scanRuns` -/

theorem scanRuns_nil (i : Nat) : scanRuns [] i = [] := rfl

theorem scanRuns_cons (c : Char) (rest : List Char) (i : Nat) :
    scanRuns (c :: rest) i =
      ((takeRun c rest).1, i) ::
        scanRuns (takeRun c rest).2 (i + (takeRun c rest).1.length) := by
  show scanRunsF (c :: rest).length (c :: rest) i = _
  rw [List.length_cons]
  show ((takeRun c rest).1, i) ::
      scanRunsF rest.length (takeRun c rest).2 (i + (takeRun c rest).1.length) = _
  congr 1
  exact scanRunsF_fuel rest.length (takeRun c rest).2.length _ _
    (takeRun_snd_length_le c rest) (Nat.le_refl _)

theorem getD_append_left {l₁ l₂ : List Char} {k : Nat} (h : k < l₁.length) (d : Char) :
    (l₁ ++ l₂).getD k d = l₁.getD k d := by
  simp [List.getD_eq_getElem?_getD, List.getElem?_append_left h]

theorem getD_append_right {l₁ l₂ : List Char} {k : Nat} (h : l₁.length ≤ k) (d : Char) :
    (l₁ ++ l₂).getD k d = l₂.getD (k - l₁.length) d := by
  simp [List.getD_eq_getElem?_getD, List.getElem?_append_right h]

/-- Every run recorded by the scan, started at a left-maximal index, is a
maximal strictly-increasing run and carries the corresponding slice. -/
theorem scanRuns_sound (n : Nat) : ∀ (l0 : List Char) (i : Nat), l0.length ≤ i + n →
    (i = 0 ∨ ¬ l0.getD (i - 1) 'a' < l0.getD i 'a') →
    ∀ p ∈ scanRuns (l0.drop i) i,
      IsMaxRun l0 p.2 p.1.length ∧ p.1 = (l0.drop p.2).take p.1.length := by
  induction n with
  | zero =>
    intro l0 i hn hb p hp
    have : l0.drop i = [] := List.drop_eq_nil_iff.mpr (by omega)
    rw [this, scanRuns_nil] at hp
    cases hp
  | succ n ih =>
    intro l0 i hn hb p hp
    cases hdrop : l0.drop i with
    | nil => rw [hdrop, scanRuns_nil] at hp; cases hp
    | cons c rest =>
      rw [hdrop, scanRuns_cons] at hp
      have hsplit : (takeRun c rest).1 ++ (takeRun c rest).2 = c :: rest :=
        takeRun_append c rest
      have hidx : i < l0.length := by
        refine List.length_lt_of_drop_ne_nil (n := i) ?_
        rw [hdrop]; simp
      have hlen1 : 1 ≤ (takeRun c rest).1.length :=
        List.length_pos.mpr (takeRun_fst_ne_nil c rest)
      have hlensum : (takeRun c rest).1.length + (takeRun c rest).2.length
          = l0.length - i := by
        have h1 := congrArg List.length hsplit
        have h2 := congrArg List.length hdrop
        simp at h1 h2
        omega
      have hle : i + (takeRun c rest).1.length ≤ l0.length := by omega
      have hslice : (takeRun c rest).1 = (l0.drop i).take (takeRun c rest).1.length := by
        rw [hdrop, ← hsplit, List.take_left]
      have hdrop2 : l0.drop (i + (takeRun c rest).1.length) = (takeRun c rest).2 := by
        rw [← List.drop_drop, hdrop, ← hsplit, List.drop_left]
      have hbound : ∀ d r, (takeRun c rest).2 = d :: r →
          ¬ l0.getD (i + (takeRun c rest).1.length - 1) 'a'
            < l0.getD (i + (takeRun c rest).1.length) 'a' := by
        intro d r hdr
        have hb1 := takeRun_boundary c rest d r hdr
        have e1 : l0.getD (i + (takeRun c rest).1.length - 1) 'a'
            = (takeRun c rest).1.getD ((takeRun c rest).1.length - 1) 'a' := by
          have : i + (takeRun c rest).1.length - 1 = i + ((takeRun c rest).1.length - 1) := by
            omega
          rw [this, ← getD_drop, hdrop, ← hsplit,
            getD_append_left (by omega)]
        have e2 : l0.getD (i + (takeRun c rest).1.length) 'a' = d := by
          rw [← getD_drop, hdrop, ← hsplit,
            getD_append_right (Nat.le_refl _), hdr]
          simp
        rw [e1, e2]
        exact hb1
      rcases List.mem_cons.mp hp with hhead | htail
      · subst hhead
        refine ⟨⟨hlen1, hle, ?_, hb, ?_⟩, hslice⟩
        · rw [← hslice]
          exact takeRun_chain' c rest
        · cases hdr : (takeRun c rest).2 with
          | nil =>
            left
            have h0 : (takeRun c rest).2.length = 0 := by rw [hdr]; rfl
            show i + (takeRun c rest).1.length = l0.length
            omega
          | cons d r => exact Or.inr (hbound d r hdr)
      · have hb' : i + (takeRun c rest).1.length = 0 ∨
            ¬ l0.getD (i + (takeRun c rest).1.length - 1) 'a'
              < l0.getD (i + (takeRun c rest).1.length) 'a' := by
          cases hdr : (takeRun c rest).2 with
          | nil =>
            rw [hdr, scanRuns_nil] at htail
            cases htail
          | cons d r => exact Or.inr (hbound d r hdr)
        have := ih l0 (i + (takeRun c rest).1.length) (by omega) hb'
        rw [hdrop2] at this
        exact this p htail

/-- Every position of the string is covered by some run recorded by the
scan. -/
theorem scanRuns_cover (n : Nat) : ∀ (l0 : List Char) (i pos : Nat), l0.length ≤ i + n →
    i ≤ pos → pos < l0.length →
    ∃ p ∈ scanRuns (l0.drop i) i, p.2 ≤ pos ∧ pos < p.2 + p.1.length := by
  induction n with
  | zero => intro l0 i pos hn hip hpos; omega
  | succ n ih =>
    intro l0 i pos hn hip hpos
    cases hdrop : l0.drop i with
    | nil =>
      have := List.drop_eq_nil_iff.mp hdrop
      omega
    | cons c rest =>
      rw [scanRuns_cons]
      have hsplit : (takeRun c rest).1 ++ (takeRun c rest).2 = c :: rest :=
        takeRun_append c rest
      have hlen1 : 1 ≤ (takeRun c rest).1.length :=
        List.length_pos.mpr (takeRun_fst_ne_nil c rest)
      have hdrop2 : l0.drop (i + (takeRun c rest).1.length) = (takeRun c rest).2 := by
        rw [← List.drop_drop, hdrop, ← hsplit, List.drop_left]
      by_cases hcase : pos < i + (takeRun c rest).1.length
      · exact ⟨((takeRun c rest).1, i), List.mem_cons_self _ _, hip, hcase⟩
      · obtain ⟨p, hp, h1, h2⟩ :=
          ih l0 (i + (takeRun c rest).1.length) pos (by omega) (by omega) hpos
        rw [hdrop2] at hp
        exact ⟨p, List.mem_cons_of_mem _ hp, h1, h2⟩

/-! ## Index-wise consequences of `IsMaxRun` and uniqueness -/

theorem chain'_slice_getD {l : List Char} {s len : Nat} (h2 : s + len ≤ l.length)
    (h3 : List.Chain' (· < ·) ((l.drop s).take len)) :
    ∀ k, k + 1 < len → l.getD (s + k) 'a' < l.getD (s + k + 1) 'a' := by
  intro k hk
  have hslen : ((l.drop s).take len).length = len := by
    simp only [List.length_take, List.length_drop]
    omega
  rw [List.chain'_iff_get] at h3
  have e : ∀ (j : Nat) (hj : j < ((l.drop s).take len).length),
      ((l.drop s).take len).get ⟨j, hj⟩ = l.getD (s + j) 'a' := by
    intro j hj
    have hjl : s + j < l.length := by
      rw [hslen] at hj
      omega
    rw [List.get_eq_getElem, List.getElem_take, List.getElem_drop,
      List.getD_eq_getElem?_getD, List.getElem?_eq_getElem hjl]
    rfl
  have hstep := h3 k (by omega)
  rw [e k (by omega), e (k + 1) (by omega)] at hstep
  have hidx : s + (k + 1) = s + k + 1 := by omega
  rw [hidx] at hstep
  exact hstep

theorem IsMaxRun.ascent {l : List Char} {s len : Nat} (h : IsMaxRun l s len)
    (a b : Nat) (ha : s ≤ a) (hb : b = a + 1) (hblt : b < s + len) :
    l.getD a 'a' < l.getD b 'a' := by
  have hasc := chain'_slice_getD h.2.1 h.2.2.1 (a - s) (by omega)
  have e1 : s + (a - s) = a := by omega
  rw [e1] at hasc
  rw [hb]
  exact hasc

/-- Two maximal runs that overlap must be identical. -/
theorem IsMaxRun_unique {l : List Char} {s1 n1 s2 n2 : Nat}
    (h1 : IsMaxRun l s1 n1) (h2 : IsMaxRun l s2 n2)
    (hle : s1 ≤ s2) (hlt : s2 < s1 + n1) : s1 = s2 ∧ n1 = n2 := by
  have hs : s1 = s2 := by
    by_contra hne
    have hslt : s1 < s2 := by omega
    have hasc := h1.ascent (s2 - 1) s2 (by omega) (by omega) (by omega)
    rcases h2.2.2.2.1 with h0 | hnasc
    · omega
    · exact hnasc hasc
  subst hs
  refine ⟨rfl, ?_⟩
  have haux : ∀ m1 m2 : Nat, IsMaxRun l s1 m1 → IsMaxRun l s1 m2 → m1 < m2 → False := by
    intro m1 m2 g1 g2 hlt12
    have hm1 : 1 ≤ m1 := g1.1
    have hasc := g2.ascent (s1 + m1 - 1) (s1 + m1) (by omega) (by omega) (by omega)
    rcases g1.2.2.2.2 with hend | hnasc
    · have hle2 := g2.2.1
      omega
    · exact hnasc hasc
  by_contra hne
  rcases Nat.lt_or_ge n1 n2 with h | h
  · exact haux n1 n2 h1 h2 h
  · exact haux n2 n1 h2 h1 (by omega)

/-! ## Characterisation of the `maxLen` / `substrings` fold -/

/-- The greatest run length seen by the fold, starting from `m`. -/
def maxLenFrom (m : Nat) (rs : List (List Char × Nat)) : Nat :=
  rs.foldl (fun m r => max m r.1.length) m

theorem maxLenFrom_nil (m : Nat) : maxLenFrom m [] = m := rfl

theorem maxLenFrom_cons (m : Nat) (r : List Char × Nat) (rs : List (List Char × Nat)) :
    maxLenFrom m (r :: rs) = maxLenFrom (max m r.1.length) rs := rfl

theorem le_maxLenFrom (rs : List (List Char × Nat)) : ∀ m : Nat, m ≤ maxLenFrom m rs := by
  induction rs with
  | nil => intro m; exact Nat.le_refl m
  | cons r rs ih =>
    intro m
    rw [maxLenFrom_cons]
    exact Nat.le_trans (Nat.le_max_left _ _) (ih _)

theorem length_le_maxLenFrom (rs : List (List Char × Nat)) :
    ∀ (m : Nat) (q : List Char × Nat), q ∈ rs → q.1.length ≤ maxLenFrom m rs := by
  induction rs with
  | nil => intro m q hq; cases hq
  | cons r rs ih =>
    intro m q hq
    rw [maxLenFrom_cons]
    rcases List.mem_cons.mp hq with rfl | htail
    · exact Nat.le_trans (Nat.le_max_right _ _) (le_maxLenFrom rs _)
    · exact ih _ q htail

theorem maxLenFrom_attained (rs : List (List Char × Nat)) :
    ∀ m : Nat, maxLenFrom m rs = m ∨ ∃ q ∈ rs, q.1.length = maxLenFrom m rs := by
  induction rs with
  | nil => intro m; exact Or.inl rfl
  | cons r rs ih =>
    intro m
    rw [maxLenFrom_cons]
    rcases ih (max m r.1.length) with heq | ⟨q, hq, hlen⟩
    · rcases Nat.le_total r.1.length m with hle | hge
      · left
        rw [heq, Nat.max_eq_left hle]
      · right
        exact ⟨r, List.mem_cons_self _ _, by rw [heq, Nat.max_eq_right hge]⟩
    · exact Or.inr ⟨q, List.mem_cons_of_mem _ hq, hlen⟩

/-- Explicit description of the accumulation loop: the final `maxLen` is
the greatest length, and `substrings` collects exactly the runs of that
length, in order, appended to the carried-over ties when the maximum never
grows. -/
theorem foldl_updateMax (rs : List (List Char × Nat)) :
    ∀ (m : Nat) (ts : List (List Char × Nat)),
    rs.foldl updateMax (m, ts) =
      (maxLenFrom m rs,
        (if maxLenFrom m rs = m then ts else [])
          ++ rs.filter (fun r => r.1.length == maxLenFrom m rs)) := by
  induction rs with
  | nil => intro m ts; simp [maxLenFrom_nil]
  | cons r rs ih =>
    intro m ts
    rw [List.foldl_cons, maxLenFrom_cons]
    rcases Nat.lt_trichotomy m r.1.length with hgt | heq | hlt
    · have hstep : updateMax (m, ts) r = (r.1.length, [r]) := by
        simp [updateMax, hgt]
      rw [hstep, ih]
      have hmax : max m r.1.length = r.1.length := Nat.max_eq_right (Nat.le_of_lt hgt)
      rw [hmax]
      have hM : r.1.length ≤ maxLenFrom r.1.length rs := le_maxLenFrom rs _
      have hne : maxLenFrom r.1.length rs ≠ m := by omega
      rw [if_neg hne]
      have hfil : List.filter (fun q => q.1.length == maxLenFrom r.1.length rs) (r :: rs)
          = (if r.1.length == maxLenFrom r.1.length rs then
              r :: List.filter (fun q => q.1.length == maxLenFrom r.1.length rs) rs
            else List.filter (fun q => q.1.length == maxLenFrom r.1.length rs) rs) := by
        simp [List.filter_cons]
      rw [hfil]
      by_cases hr : r.1.length = maxLenFrom r.1.length rs
      · rw [if_pos hr.symm, if_pos (beq_iff_eq.mpr hr)]
        simp
      · rw [if_neg (Ne.symm hr), if_neg (by simpa using hr)]
    · have hstep : updateMax (m, ts) r = (m, ts ++ [r]) := by
        simp [updateMax, heq.symm, Nat.lt_irrefl]
      rw [hstep, ih]
      have hmax : max m r.1.length = m := by omega
      rw [hmax]
      have hfil : List.filter (fun q => q.1.length == maxLenFrom m rs) (r :: rs)
          = (if r.1.length == maxLenFrom m rs then
              r :: List.filter (fun q => q.1.length == maxLenFrom m rs) rs
            else List.filter (fun q => q.1.length == maxLenFrom m rs) rs) := by
        simp [List.filter_cons]
      rw [hfil]
      by_cases hM : maxLenFrom m rs = m
      · rw [if_pos hM, if_pos hM, if_pos (beq_iff_eq.mpr (by omega))]
        simp
      · rw [if_neg hM, if_neg hM, if_neg (by simp; omega)]
    · have hstep : updateMax (m, ts) r = (m, ts) := by
        have h1 : ¬ r.1.length > m := by omega
        have h2 : ¬ r.1.length = m := by omega
        simp [updateMax, h1, h2]
      rw [hstep, ih]
      have hmax : max m r.1.length = m := Nat.max_eq_left (Nat.le_of_lt hlt)
      rw [hmax]
      have hM : m ≤ maxLenFrom m rs := le_maxLenFrom rs _
      have hfil : List.filter (fun q => q.1.length == maxLenFrom m rs) (r :: rs)
          = List.filter (fun q => q.1.length == maxLenFrom m rs) rs := by
        rw [List.filter_cons]
        rw [if_neg (by simp; omega)]
      rw [hfil]

/-- `scanResult` in closed form: the maximum run length together with the
runs of exactly that length, in scan order. -/
theorem scanResult_eq (l : List Char) :
    scanResult l = (maxLenFrom 0 (scanRuns l 0),
      (scanRuns l 0).filter (fun r => r.1.length == maxLenFrom 0 (scanRuns l 0))) := by
  rw [scanResult, foldl_updateMax]
  congr 1
  rw [ite_self]
  simp

/-! ## The scan's runs are exactly the maximal runs -/

theorem scanRuns_mem_iff (l : List Char) (p : List Char × Nat) :
    p ∈ scanRuns l 0 ↔
      IsMaxRun l p.2 p.1.length ∧ p.1 = (l.drop p.2).take p.1.length := by
  constructor
  · intro hp
    have h := scanRuns_sound l.length l 0 (by omega) (Or.inl rfl)
    rw [List.drop_zero] at h
    exact h p hp
  · rintro ⟨hmax, hslice⟩
    have h1 : 1 ≤ p.1.length := hmax.1
    have h2 : p.2 + p.1.length ≤ l.length := hmax.2.1
    have hcov := scanRuns_cover l.length l 0 p.2 (by omega) (Nat.zero_le _) (by omega)
    rw [List.drop_zero] at hcov
    obtain ⟨q, hq, hq1, hq2⟩ := hcov
    have hsound := scanRuns_sound l.length l 0 (by omega) (Or.inl rfl)
    rw [List.drop_zero] at hsound
    obtain ⟨hqmax, hqslice⟩ := hsound q hq
    obtain ⟨hs, hn⟩ := IsMaxRun_unique hqmax hmax hq1 hq2
    have hqp : q = p := by
      have hfst : q.1 = p.1 := by rw [hqslice, hslice, hs, hn]
      exact Prod.ext hfst hs
    rw [← hqp]
    exact hq

/-! ## The declarative greatest length agrees with the fold's `maxLen` -/

theorem le_foldr_max (L : List Nat) : ∀ a ∈ L, a ≤ L.foldr max 0 := by
  induction L with
  | nil => intro a ha; cases ha
  | cons b L ih =>
    intro a ha
    rcases List.mem_cons.mp ha with rfl | h
    · exact Nat.le_max_left _ _
    · exact Nat.le_trans (ih a h) (Nat.le_max_right _ _)

theorem foldr_max_mem (L : List Nat) : L.foldr max 0 = 0 ∨ L.foldr max 0 ∈ L := by
  induction L with
  | nil => exact Or.inl rfl
  | cons b L ih =>
    rcases Nat.le_total b (L.foldr max 0) with h | h
    · rw [List.foldr_cons, Nat.max_eq_right h]
      rcases ih with h0 | hm
      · exact Or.inl h0
      · exact Or.inr (List.mem_cons_of_mem _ hm)
    · rw [List.foldr_cons, Nat.max_eq_left h]
      exact Or.inr (List.mem_cons_self _ _)

theorem specGreatest_ub {l : List Char} {s len : Nat} (h : IsMaxRun l s len) :
    len ≤ specGreatest l := by
  have hb1 : 1 ≤ len := h.1
  have hb2 : s + len ≤ l.length := h.2.1
  apply le_foldr_max
  apply List.mem_filter.mpr
  refine ⟨List.mem_range.mpr (by omega), ?_⟩
  apply List.any_eq_true.mpr
  exact ⟨s, List.mem_range.mpr (by omega), decide_eq_true h⟩

theorem specGreatest_attained (l : List Char) :
    specGreatest l = 0 ∨ ∃ s, IsMaxRun l s (specGreatest l) := by
  rcases foldr_max_mem (((List.range (l.length + 1)).filter fun len =>
      (List.range (l.length + 1)).any fun s => decide (IsMaxRun l s len))) with h0 | hm
  · exact Or.inl h0
  · right
    obtain ⟨s, _, hdec⟩ := List.any_eq_true.mp (List.mem_filter.mp hm).2
    exact ⟨s, of_decide_eq_true hdec⟩

theorem maxLen_eq_specGreatest (l : List Char) :
    maxLenFrom 0 (scanRuns l 0) = specGreatest l := by
  apply Nat.le_antisymm
  · rcases maxLenFrom_attained (scanRuns l 0) 0 with h0 | ⟨q, hq, hlen⟩
    · rw [h0]
      exact Nat.zero_le _
    · rw [← hlen]
      exact specGreatest_ub ((scanRuns_mem_iff l q).mp hq).1
  · rcases specGreatest_attained l with h0 | ⟨s, hs⟩
    · rw [h0]
      exact Nat.zero_le _
    · have hlen : ((l.drop s).take (specGreatest l)).length = specGreatest l := by
        have := hs.2.1
        simp only [List.length_take, List.length_drop]
        omega
      have hmem : ((l.drop s).take (specGreatest l), s) ∈ scanRuns l 0 := by
        apply (scanRuns_mem_iff l _).mpr
        constructor
        · show IsMaxRun l s ((l.drop s).take (specGreatest l)).length
          rw [hlen]
          exact hs
        · show (l.drop s).take (specGreatest l)
            = (l.drop s).take ((l.drop s).take (specGreatest l)).length
          rw [hlen]
      have hle := length_le_maxLenFrom (scanRuns l 0) 0 _ hmem
      rw [show (((l.drop s).take (specGreatest l), s) : List Char × Nat).1
        = (l.drop s).take (specGreatest l) from rfl, hlen] at hle
      exact hle

/-! ## Order: both run lists are strictly sorted by start index -/

theorem scanRuns_sorted (n : Nat) : ∀ (l0 : List Char) (i : Nat), l0.length ≤ i + n →
    (∀ p ∈ scanRuns (l0.drop i) i, i ≤ p.2) ∧
      List.Pairwise (fun a b : List Char × Nat => a.2 < b.2) (scanRuns (l0.drop i) i) := by
  induction n with
  | zero =>
    intro l0 i hn
    have : l0.drop i = [] := List.drop_eq_nil_iff.mpr (by omega)
    rw [this, scanRuns_nil]
    exact ⟨fun p hp => absurd hp (List.not_mem_nil p), List.Pairwise.nil⟩
  | succ n ih =>
    intro l0 i hn
    cases hdrop : l0.drop i with
    | nil => rw [scanRuns_nil]; exact ⟨fun p hp => absurd hp (List.not_mem_nil p), List.Pairwise.nil⟩
    | cons c rest =>
      rw [scanRuns_cons]
      have hsplit : (takeRun c rest).1 ++ (takeRun c rest).2 = c :: rest :=
        takeRun_append c rest
      have hlen1 : 1 ≤ (takeRun c rest).1.length :=
        List.length_pos.mpr (takeRun_fst_ne_nil c rest)
      have hdrop2 : l0.drop (i + (takeRun c rest).1.length) = (takeRun c rest).2 := by
        rw [← List.drop_drop, hdrop, ← hsplit, List.drop_left]
      obtain ⟨ihlb, ihpw⟩ := ih l0 (i + (takeRun c rest).1.length) (by omega)
      rw [hdrop2] at ihlb ihpw
      constructor
      · intro p hp
        rcases List.mem_cons.mp hp with rfl | htail
        · exact Nat.le_refl i
        · exact Nat.le_trans (by omega) (ihlb p htail)
      · rw [List.pairwise_cons]
        refine ⟨fun p hp => ?_, ihpw⟩
        have := ihlb p hp
        show i < p.2
        omega

theorem substrings_sorted (l : List Char) :
    List.Pairwise (fun a b : List Char × Nat => a.2 < b.2) (scanResult l).2 := by
  rw [scanResult_eq]
  apply List.Pairwise.filter
  have h := scanRuns_sorted l.length l 0 (by omega)
  rw [List.drop_zero] at h
  exact h.2

theorem specTied_sorted (l : List Char) :
    List.Pairwise (fun a b : List Char × Nat => a.2 < b.2) (specTied l) := by
  apply List.Pairwise.filterMap
  · intro a b hab x hx y hy
    have hx2 : x.2 = a := by
      by_cases ha : IsMaxRun l a (specGreatest l)
      · rw [Option.mem_def, if_pos ha] at hx
        rw [← Option.some.inj hx]
      · rw [Option.mem_def, if_neg ha] at hx
        cases hx
    have hy2 : y.2 = b := by
      by_cases hb : IsMaxRun l b (specGreatest l)
      · rw [Option.mem_def, if_pos hb] at hy
        rw [← Option.some.inj hy]
      · rw [Option.mem_def, if_neg hb] at hy
        cases hy
    rw [hx2, hy2]
    exact hab
  · exact List.pairwise_lt_range _

/-- Two lists strictly sorted on a `Nat` key with the same members are
equal. -/
theorem pairwise_key_eq {α : Type} (key : α → Nat) :
    ∀ l1 l2 : List α, List.Pairwise (fun a b => key a < key b) l1 →
      List.Pairwise (fun a b => key a < key b) l2 →
      (∀ x, x ∈ l1 ↔ x ∈ l2) → l1 = l2 := by
  intro l1
  induction l1 with
  | nil =>
    intro l2 _ _ hmem
    cases l2 with
    | nil => rfl
    | cons b t2 => exact absurd ((hmem b).mpr (List.mem_cons_self _ _)) (List.not_mem_nil b)
  | cons a t1 ih =>
    intro l2 hp1 hp2 hmem
    cases l2 with
    | nil => exact absurd ((hmem a).mp (List.mem_cons_self _ _)) (List.not_mem_nil a)
    | cons b t2 =>
      obtain ⟨ha1, hp1'⟩ := List.pairwise_cons.mp hp1
      obtain ⟨hb2, hp2'⟩ := List.pairwise_cons.mp hp2
      have hab : a = b := by
        rcases List.mem_cons.mp ((hmem a).mp (List.mem_cons_self _ _)) with h | h
        · exact h
        · have hba := hb2 a h
          rcases List.mem_cons.mp ((hmem b).mpr (List.mem_cons_self _ _)) with h' | h'
          · exact h'.symm
          · have := ha1 b h'
            omega
      subst hab
      congr 1
      apply ih t2 hp1' hp2'
      intro x
      constructor
      · intro hx
        have hax := ha1 x hx
        rcases List.mem_cons.mp ((hmem x).mp (List.mem_cons_of_mem _ hx)) with h | h
        · subst h; omega
        · exact h
      · intro hx
        have hax := hb2 x hx
        rcases List.mem_cons.mp ((hmem x).mpr (List.mem_cons_of_mem _ hx)) with h | h
        · subst h; omega
        · exact h

/-- The scan's collected `substrings` coincide with the declaratively
defined tied-maximum set, as ordered lists. -/
theorem substrings_eq_specTied (l : List Char) : (scanResult l).2 = specTied l := by
  apply pairwise_key_eq (fun p : List Char × Nat => p.2) _ _
    (substrings_sorted l) (specTied_sorted l)
  intro x
  rw [scanResult_eq]
  constructor
  · intro hx
    obtain ⟨hmem, hbeq⟩ := List.mem_filter.mp hx
    obtain ⟨hmax, hslice⟩ := (scanRuns_mem_iff l x).mp hmem
    have hlenM : x.1.length = maxLenFrom 0 (scanRuns l 0) := by
      exact beq_iff_eq.mp hbeq
    have hG : x.1.length = specGreatest l := by
      rw [hlenM, maxLen_eq_specGreatest]
    have hb1 : 1 ≤ x.1.length := hmax.1
    have hb2 : x.2 + x.1.length ≤ l.length := hmax.2.1
    apply List.mem_filterMap.mpr
    refine ⟨x.2, List.mem_range.mpr (by omega), ?_⟩
    rw [if_pos (hG ▸ hmax)]
    rw [← hG, ← hslice]
  · intro hx
    obtain ⟨s, _, hsome⟩ := List.mem_filterMap.mp hx
    by_cases hcond : IsMaxRun l s (specGreatest l)
    · rw [if_pos hcond] at hsome
      have hxval : x = ((l.drop s).take (specGreatest l), s) := (Option.some.inj hsome).symm
      subst hxval
      have hb2 : s + specGreatest l ≤ l.length := hcond.2.1
      have hlen : ((l.drop s).take (specGreatest l)).length = specGreatest l := by
        simp only [List.length_take, List.length_drop]
        omega
      apply List.mem_filter.mpr
      constructor
      · apply (scanRuns_mem_iff l _).mpr
        refine ⟨?_, ?_⟩
        · show IsMaxRun l s ((l.drop s).take (specGreatest l)).length
          rw [hlen]
          exact hcond
        · show (l.drop s).take (specGreatest l)
            = (l.drop s).take ((l.drop s).take (specGreatest l)).length
          rw [hlen]
      · apply beq_iff_eq.mpr
        show ((l.drop s).take (specGreatest l)).length = maxLenFrom 0 (scanRuns l 0)
        rw [hlen, maxLen_eq_specGreatest]
    · rw [if_neg hcond] at hsome
      cases hsome

/-! ## Supporting facts for the claims -/

theorem scanRuns_ne_nil {l : List Char} (h : l ≠ []) : scanRuns l 0 ≠ [] := by
  cases l with
  | nil => exact absurd rfl h
  | cons c rest => rw [scanRuns_cons]; simp

theorem substrings_ne_nil {l : List Char} (h : l ≠ []) : (scanResult l).2 ≠ [] := by
  rw [scanResult_eq]
  cases l with
  | nil => exact absurd rfl h
  | cons c rest =>
    have hrun : ((takeRun c rest).1, 0) ∈ scanRuns (c :: rest) 0 := by
      rw [scanRuns_cons]
      exact List.mem_cons_self _ _
    have hle : 1 ≤ maxLenFrom 0 (scanRuns (c :: rest) 0) :=
      Nat.le_trans (List.length_pos.mpr (takeRun_fst_ne_nil c rest))
        (length_le_maxLenFrom _ 0 _ hrun)
    rcases maxLenFrom_attained (scanRuns (c :: rest) 0) 0 with h0 | ⟨q, hq, hlen⟩
    · omega
    · exact List.ne_nil_of_mem
        (List.mem_filter.mpr ⟨hq, beq_iff_eq.mpr hlen⟩)

theorem substrings_mem {l : List Char} {r : List Char × Nat}
    (h : r ∈ (scanResult l).2) :
    r ∈ scanRuns l 0 ∧ r.1.length = (scanResult l).1 := by
  rw [scanResult_eq] at h ⊢
  have hf := List.mem_filter.mp h
  exact ⟨hf.1, beq_iff_eq.mp hf.2⟩

theorem sha1_length (m : List Nat) : (sha1 m).length = 20 := by
  rw [sha1]
  set st := (chunks64 (padMessage m)).foldl processChunk
    (1732584193, 4023233417, 2562383102, 271733878, 3285377520) with hst
  obtain ⟨h0, h1, h2, h3, h4⟩ := st
  rfl

theorem flatten_byteToHex_length (bs : List Nat) :
    ((bs.map byteToHex).flatten).length = 2 * bs.length := by
  induction bs with
  | nil => rfl
  | cons b bs ih =>
    simp only [List.map_cons, List.flatten_cons, List.length_append, ih,
      byteToHex, List.length_cons, List.length_nil]
    omega

theorem sha1HexString_length (s : String) : (sha1HexString s).length = 40 := by
  rw [sha1HexString, flatten_byteToHex_length, sha1_length]

theorem hexDigit_class {n : Nat} (hn : n < 16) :
    ('0' ≤ hexDigit n ∧ hexDigit n ≤ '9') ∨ ('a' ≤ hexDigit n ∧ hexDigit n ≤ 'f') := by
  interval_cases n <;> decide

theorem sha1HexString_mem {s : String} {c : Char} (h : c ∈ sha1HexString s) :
    ('0' ≤ c ∧ c ≤ '9') ∨ ('a' ≤ c ∧ c ≤ 'f') := by
  rw [sha1HexString] at h
  obtain ⟨l', hl', hc⟩ := List.mem_flatten.mp h
  obtain ⟨b, _, rfl⟩ := List.mem_map.mp hl'
  have h16a : b / 16 % 16 < 16 := Nat.mod_lt _ (by norm_num)
  have h16b : b % 16 < 16 := Nat.mod_lt _ (by norm_num)
  rcases List.mem_cons.mp hc with rfl | hc'
  · exact hexDigit_class h16a
  · rcases List.mem_cons.mp hc' with rfl | hc''
    · exact hexDigit_class h16b
    · cases hc''

theorem decimalRepr_ne_nil (n : Nat) : decimalRepr n ≠ [] := by
  rw [decimalRepr_eq]
  split
  · simp
  · simp

theorem decimalRepr_digits (n : Nat) : ∀ c ∈ decimalRepr n, '0' ≤ c ∧ c ≤ '9' := by
  induction n using Nat.strong_induction_on with
  | _ n ih =>
    rw [decimalRepr_eq]
    split
    · rename_i h
      intro c hc
      rcases List.mem_cons.mp hc with rfl | hc'
      · interval_cases n <;> decide
      · cases hc'
    · rename_i h
      intro c hc
      rcases List.mem_append.mp hc with h1 | h2
      · exact ih (n / 10) (Nat.div_lt_self (by omega) (by norm_num)) c h1
      · rcases List.mem_cons.mp h2 with rfl | h3
        · have hk : n % 10 < 10 := Nat.mod_lt _ (by norm_num)
          set k := n % 10 with hkdef
          clear_value k
          interval_cases k <;> decide
        · cases h3

theorem data_ne_nil {s : String} (h : s ≠ "") : s.data ≠ [] := by
  intro hd
  apply h
  cases s with
  | mk data => cases hd; rfl

theorem lowerStr_ne_nil {s : String} (h : s ≠ "") : lowerStr s.data ≠ [] := by
  have := data_ne_nil h
  simp only [lowerStr, ne_eq, List.map_eq_nil_iff]
  exact this

/-- Unfolding of `generateProductCode` on non-empty input. -/
theorem generateProductCode_some (s : String) (h : s ≠ "") :
    ∃ r rest, (scanResult (lowerStr s.data)).2 = r :: rest ∧
      generateProductCode s = some ⟨(sha1HexString s).take 8 ++ '-' ::
        (decimalRepr r.2 ++ ((scanResult (lowerStr s.data)).2.map Prod.fst).flatten
          ++ decimalRepr (r.2 + (scanResult (lowerStr s.data)).1 - 1))⟩ := by
  obtain ⟨r, rest, hr⟩ := List.exists_cons_of_ne_nil (substrings_ne_nil (lowerStr_ne_nil h))
  refine ⟨r, rest, hr, ?_⟩
  simp only [generateProductCode, hr]

theorem take_eight {A : List Char} (B : List Char) (h : A.length = 8) :
    (A ++ '-' :: B).take 8 = A := by
  rw [List.take_append_of_le_length (by omega), ← h, List.take_length]

theorem drop_nine {A : List Char} (B : List Char) (h : A.length = 8) :
    (A ++ '-' :: B).drop 9 = B := by
  have hsplit : A ++ '-' :: B = (A ++ ['-']) ++ B := by simp
  rw [hsplit, List.drop_left' (by simp [h])]

/-- Digit characters `0`–`9`. -/
def isDigitChar (c : Char) : Prop := '0' ≤ c ∧ c ≤ '9'

instance (c : Char) : Decidable (isDigitChar c) :=
  inferInstanceAs (Decidable (_ ∧ _))

/-- Lowercase hexadecimal characters `0`–`9`, `a`–`f`. -/
def isLowerHexChar (c : Char) : Prop := ('0' ≤ c ∧ c ≤ '9') ∨ ('a' ≤ c ∧ c ≤ 'f')

instance (c : Char) : Decidable (isLowerHexChar c) :=
  inferInstanceAs (Decidable (_ ∨ _))

/-- ASCII letters. -/
def isAsciiAlpha (c : Char) : Prop := ('A' ≤ c ∧ c ≤ 'Z') ∨ ('a' ≤ c ∧ c ≤ 'z')

instance (c : Char) : Decidable (isAsciiAlpha c) :=
  inferInstanceAs (Decidable (_ ∨ _))

/-- The hash component of a generated code: its first eight characters. -/
def hashPart (o : Option String) : Option (List Char) :=
  o.map fun out => out.data.take 8

/-- The run/first/last component of a generated code: everything after the
dash at index 8. -/
def suffixPart (o : Option String) : Option (List Char) :=
  o.map fun out => out.data.drop 9

/-! ## Claim theorems -/

/-- C2: for every non-empty input `s`, the 8-character prefix of
`generateProductCode s` (the part before the dash, which sits at index 8)
equals the first 8 lowercase hex characters of the SHA-1 digest of the
original, non-lowercased input. -/
theorem c2_hash_prefix (s : String) (hs : s ≠ "") :
    ∃ out, generateProductCode s = some out ∧
      out.data.take 8 = (sha1HexString s).take 8 ∧ out.data[8]? = some '-' := by
  obtain ⟨r, rest, hr, heq⟩ := generateProductCode_some s hs
  have hlen : ((sha1HexString s).take 8).length = 8 := by
    rw [List.length_take, sha1HexString_length]
    omega
  refine ⟨_, heq, ?_, ?_⟩
  · exact take_eight _ hlen
  · show (((sha1HexString s).take 8) ++ '-' :: _)[8]? = some '-'
    rw [List.getElem?_append_right (by omega), hlen]
    simp

theorem c2_hash_prefix_witness :
    ∃ out, generateProductCode "ab" = some out ∧
      out.data.take 8 = (sha1HexString "ab").take 8 ∧ out.data[8]? = some '-' :=
  c2_hash_prefix "ab" (by decide)

/-- C4: `generateProductCode` is total on non-empty inputs: the scan
records at least one run, `substrings` is non-empty (so `substrings[0]`
exists), and the function returns a string. -/
theorem c4_total_on_nonempty (s : String) (hs : s ≠ "") :
    scanRuns (lowerStr s.data) 0 ≠ [] ∧ (scanResult (lowerStr s.data)).2 ≠ [] ∧
      ∃ out, generateProductCode s = some out := by
  refine ⟨scanRuns_ne_nil (lowerStr_ne_nil hs),
    substrings_ne_nil (lowerStr_ne_nil hs), ?_⟩
  obtain ⟨r, rest, _, heq⟩ := generateProductCode_some s hs
  exact ⟨_, heq⟩

theorem c4_total_on_nonempty_witness :
    scanRuns (lowerStr "a".data) 0 ≠ [] ∧ (scanResult (lowerStr "a".data)).2 ≠ [] ∧
      ∃ out, generateProductCode "a" = some out :=
  c4_total_on_nonempty "a" (by decide)

/-- C5: on the empty string the scan records no runs, `substrings` is
empty, and the unconditional `substrings[0].start` access fails — the
function does not return normally (modelled as `none`). -/
theorem c5_empty_input :
    scanRuns (lowerStr "".data) 0 = [] ∧ (scanResult (lowerStr "".data)).2 = [] ∧
      generateProductCode "" = none :=
  ⟨rfl, rfl, rfl⟩

/-- C7: `generateProductCode` is deterministic — two calls on the same
input yield identical output (it is a pure function of its argument). -/
theorem c7_deterministic (s : String) :
    generateProductCode s = generateProductCode s := rfl

/-- C10: on non-empty input, the indices embedded in the output satisfy
`first ≤ last ≤ n - 1`, and the slice of the lowercased input from `first`
to `last` is exactly the first recorded run's substring. -/
theorem c10_first_last_bounds (s : String) (hs : s ≠ "") :
    ∃ r rest, (scanResult (lowerStr s.data)).2 = r :: rest ∧
      r.2 ≤ r.2 + (scanResult (lowerStr s.data)).1 - 1 ∧
      r.2 + (scanResult (lowerStr s.data)).1 - 1 ≤ (lowerStr s.data).length - 1 ∧
      ((lowerStr s.data).drop r.2).take (scanResult (lowerStr s.data)).1 = r.1 := by
  obtain ⟨r, rest, hr, _⟩ := generateProductCode_some s hs
  have hrmem : r ∈ (scanResult (lowerStr s.data)).2 := hr ▸ List.mem_cons_self _ _
  obtain ⟨hruns, hlenM⟩ := substrings_mem hrmem
  obtain ⟨hmax, hslice⟩ := (scanRuns_mem_iff _ r).mp hruns
  have h1 : 1 ≤ r.1.length := hmax.1
  have h2 : r.2 + r.1.length ≤ (lowerStr s.data).length := hmax.2.1
  refine ⟨r, rest, hr, ?_, ?_, ?_⟩
  · rw [← hlenM]
    omega
  · rw [← hlenM]
    omega
  · rw [← hlenM]
    exact hslice.symm

theorem c10_first_last_bounds_witness :
    ∃ r rest, (scanResult (lowerStr "ab".data)).2 = r :: rest ∧
      r.2 ≤ r.2 + (scanResult (lowerStr "ab".data)).1 - 1 ∧
      r.2 + (scanResult (lowerStr "ab".data)).1 - 1 ≤ (lowerStr "ab".data).length - 1 ∧
      ((lowerStr "ab".data).drop r.2).take (scanResult (lowerStr "ab".data)).1 = r.1 :=
  c10_first_last_bounds "ab" (by decide)

/-- C1: for every non-empty input, `generateProductCode` returns
`"{hash8}-{first}{concat}{last}"` with no separators between `first`,
`concat` and `last`, where `concat` concatenates ALL runs tied for the
greatest length while `first` is the start index of only the FIRST tied
run and `last = first + maxLen - 1`. -/
theorem c1_output_format (s : String) (hs : s ≠ "") :
    ∃ fst rest, specTied (lowerStr s.data) = fst :: rest ∧
      generateProductCode s = some ⟨(sha1HexString s).take 8 ++ '-' ::
        (decimalRepr fst.2 ++ ((specTied (lowerStr s.data)).map Prod.fst).flatten
          ++ decimalRepr (fst.2 + specGreatest (lowerStr s.data) - 1))⟩ := by
  obtain ⟨r, rest, hr, heq⟩ := generateProductCode_some s hs
  have hsub : (scanResult (lowerStr s.data)).2 = specTied (lowerStr s.data) :=
    substrings_eq_specTied _
  have hmax1 : (scanResult (lowerStr s.data)).1 = specGreatest (lowerStr s.data) := by
    rw [scanResult_eq]
    exact maxLen_eq_specGreatest _
  refine ⟨r, rest, by rw [← hsub]; exact hr, ?_⟩
  rw [← hsub, ← hmax1]
  exact heq

theorem c1_output_format_witness :
    ∃ fst rest, specTied (lowerStr "ab".data) = fst :: rest ∧
      generateProductCode "ab" = some ⟨(sha1HexString "ab").take 8 ++ '-' ::
        (decimalRepr fst.2 ++ ((specTied (lowerStr "ab".data)).map Prod.fst).flatten
          ++ decimalRepr (fst.2 + specGreatest (lowerStr "ab".data) - 1))⟩ :=
  c1_output_format "ab" (by decide)

/-- C3: the scan's collected `substrings` list coincides with the
declaratively defined tied-maximum set (every maximal strictly-increasing
run of the lowercased input whose length equals the greatest run length,
in left-to-right order), and hence `concat` is the concatenation of
exactly those runs' substrings. -/
theorem c3_concat_tied_runs (s : String) :
    (scanResult (lowerStr s.data)).2 = specTied (lowerStr s.data) ∧
      ((scanResult (lowerStr s.data)).2.map Prod.fst).flatten
        = ((specTied (lowerStr s.data)).map Prod.fst).flatten :=
  ⟨substrings_eq_specTied _, by rw [substrings_eq_specTied]⟩

set_option maxRecDepth 100000 in
/-- C6: `"IPhone"` and `"iphone"` yield the same component after the dash
but different 8-character hash prefixes; in general the part after the
dash depends only on the lowercased input, while the hash prefix is the
SHA-1 of the original-case input. -/
theorem c6_scan_case_insensitive_hash_not :
    (suffixPart (generateProductCode "IPhone") = suffixPart (generateProductCode "iphone")
      ∧ hashPart (generateProductCode "IPhone") ≠ hashPart (generateProductCode "iphone"))
    ∧ (∀ s t : String, lowerStr s.data = lowerStr t.data →
        suffixPart (generateProductCode s) = suffixPart (generateProductCode t))
    ∧ (∀ s : String, s ≠ "" →
        hashPart (generateProductCode s) = some ((sha1HexString s).take 8)) := by
  refine ⟨by decide, ?_, ?_⟩
  · intro s t hst
    by_cases hs : s = ""
    · subst hs
      have htd : t.data = [] := by
        have : lowerStr t.data = [] := hst.symm
        simpa [lowerStr] using this
      have ht : t = "" := by
        cases t with
        | mk data => cases htd; rfl
      subst ht
      rfl
    · have ht : t ≠ "" := by
        intro h0
        subst h0
        have hsd : s.data = [] := by
          have : lowerStr s.data = [] := hst
          simpa [lowerStr] using this
        exact hs (by cases s with | mk data => cases hsd; rfl)
      obtain ⟨r, rest, hr, heq⟩ := generateProductCode_some s hs
      obtain ⟨r', rest', hr', heq'⟩ := generateProductCode_some t ht
      rw [hst] at hr heq
      rw [hr'] at hr
      obtain ⟨hrr, hrest⟩ : r' = r ∧ rest' = rest := by
        have h1 := (List.cons.injEq .. ▸ hr).1
        have h2 := (List.cons.injEq .. ▸ hr).2
        exact ⟨h1, h2⟩
      subst hrr
      rw [heq, heq']
      have hlenS : ((sha1HexString s).take 8).length = 8 := by
        rw [List.length_take, sha1HexString_length]
        omega
      have hlenT : ((sha1HexString t).take 8).length = 8 := by
        rw [List.length_take, sha1HexString_length]
        omega
      show some ((((sha1HexString s).take 8) ++ '-' :: _).drop 9)
        = some ((((sha1HexString t).take 8) ++ '-' :: _).drop 9)
      rw [drop_nine _ hlenS, drop_nine _ hlenT]
  · intro s hs
    obtain ⟨r, rest, hr, heq⟩ := generateProductCode_some s hs
    rw [heq]
    have hlen : ((sha1HexString s).take 8).length = 8 := by
      rw [List.length_take, sha1HexString_length]
      omega
    show some ((((sha1HexString s).take 8) ++ '-' :: _).take 8) = _
    rw [take_eight _ hlen]

theorem c6_scan_case_insensitive_hash_not_witness :
    suffixPart (generateProductCode "Ab") = suffixPart (generateProductCode "aB")
      ∧ hashPart (generateProductCode "Ab") = some ((sha1HexString "Ab").take 8) :=
  ⟨c6_scan_case_insensitive_hash_not.2.1 "Ab" "aB" (by decide),
    c6_scan_case_insensitive_hash_not.2.2 "Ab" (by decide)⟩

set_option maxRecDepth 100000 in
/-- C8: on the fully descending input `"cba"` every run has length 1, all
three single-character runs tie for `maxLen = 1`, `concat = "cba"`,
`first = 0`, `last = 0`, and the result is `"<hash8>-0cba0"` where
`<hash8>` is the 8-character SHA-1 prefix of `"cba"`. -/
theorem c8_descending_cba :
    (∀ p ∈ scanRuns (lowerStr "cba".data) 0, p.1.length = 1)
    ∧ (scanResult (lowerStr "cba".data)).1 = 1
    ∧ (scanResult (lowerStr "cba".data)).2.length = 3
    ∧ ((scanResult (lowerStr "cba".data)).2.map Prod.fst).flatten = "cba".data
    ∧ (∃ r rest, (scanResult (lowerStr "cba".data)).2 = r :: rest ∧ r.2 = 0
        ∧ r.2 + (scanResult (lowerStr "cba".data)).1 - 1 = 0)
    ∧ generateProductCode "cba"
        = some ⟨(sha1HexString "cba").take 8 ++ '-' :: "0cba0".data⟩ := by
  refine ⟨by decide, by decide, by decide, by decide,
    ⟨(['c'], 0), [(['b'], 1), (['a'], 2)], by decide, rfl, rfl⟩, by decide⟩

/-- C9: for every non-empty alphabetic input with at least one ascending
adjacent pair, the output matches `^[0-9a-f]{8}-\d+.*\d+$`: eight
lowercase hex characters, a dash, a non-empty digit block, arbitrary
content, and a final non-empty digit block. -/
theorem c9_output_matches_format (s : String) (h1 : s ≠ "")
    (h2 : ∀ c ∈ s.data, isAsciiAlpha c)
    (h3 : ∃ k, k + 1 < s.data.length ∧ s.data.getD k 'a' < s.data.getD (k + 1) 'a') :
    ∃ out h8 d1 mid d2, generateProductCode s = some out ∧
      out.data = h8 ++ '-' :: (d1 ++ mid ++ d2) ∧
      h8.length = 8 ∧ (∀ c ∈ h8, isLowerHexChar c) ∧
      d1 ≠ [] ∧ (∀ c ∈ d1, isDigitChar c) ∧
      d2 ≠ [] ∧ (∀ c ∈ d2, isDigitChar c) := by
  obtain ⟨r, rest, hr, heq⟩ := generateProductCode_some s h1
  refine ⟨_, (sha1HexString s).take 8, decimalRepr r.2,
    ((scanResult (lowerStr s.data)).2.map Prod.fst).flatten,
    decimalRepr (r.2 + (scanResult (lowerStr s.data)).1 - 1),
    heq, rfl, ?_, ?_, decimalRepr_ne_nil _, ?_, decimalRepr_ne_nil _, ?_⟩
  · rw [List.length_take, sha1HexString_length]
    omega
  · intro c hc
    exact sha1HexString_mem (List.mem_of_mem_take hc)
  · exact decimalRepr_digits _
  · exact decimalRepr_digits _

theorem c9_output_matches_format_witness :
    (∃ k, k + 1 < "ab".data.length
        ∧ "ab".data.getD k 'a' < "ab".data.getD (k + 1) 'a')
    ∧ ∃ out h8 d1 mid d2, generateProductCode "ab" = some out ∧
        out.data = h8 ++ '-' :: (d1 ++ mid ++ d2) ∧
        h8.length = 8 ∧ (∀ c ∈ h8, isLowerHexChar c) ∧
        d1 ≠ [] ∧ (∀ c ∈ d1, isDigitChar c) ∧
        d2 ≠ [] ∧ (∀ c ∈ d2, isDigitChar c) :=
  ⟨⟨0, by decide, by decide⟩,
    c9_output_matches_format "ab" (by decide) (by decide)
      ⟨0, by decide, by decide⟩⟩

end ProductCode
